import Mathlib

/-!
Verification of `ml_helpers.cpp` (agc-root, cms-open-data-ttbar analysis).

The file contains a shallow embedding of the four functions of the source
file — `get_permutations`, `get_permutations_dict`, `get_fastforests`
(only its pure shape matters and it is not the subject of any claim),
and `inference` — together with theorems settling the frozen claims.

Strings are embedded as `List Char` (the C++ code treats `std::string`
as a sequence of characters), `std::map` keyed lookups are embedded as
association lists queried through `mget`, `std::vector<int>` as
`List Nat`, floating point numbers as real numbers, and the opaque
`fastforest::FastForest` ensemble as an arbitrary function
`List ℝ → ℝ → ℝ`.  Fallible operations (`.at` out-of-range access and
a failing `assert`) are embedded by returning `Option`.
-/

namespace MlHelpers

open List

/-! ### std::next_permutation

`std::next_permutation` rearranges the range into the lexicographically
next greater permutation, returning `false` (here: `none`) when the range
is already the greatest (non-increasing) arrangement.  `swapOut x xs`
finds the rightmost element of `xs` greater than `x`, replaces it by `x`
and returns the removed element together with the modified list; this is
the pivot/swap step of the standard algorithm, and `nextPermutation`
recurses to locate the rightmost position whose suffix is exhausted. -/
def swapOut (x : Char) : List Char → Option (Char × List Char)
  | [] => none
  | z :: zs =>
    match swapOut x zs with
    | some (y, zs') => some (y, z :: zs')
    | none => if x < z then some (z, x :: zs) else none

def nextPermutation : List Char → Option (List Char)
  | [] => none
  | x :: xs =>
    match nextPermutation xs with
    | some ys => some (x :: ys)
    | none =>
      match swapOut x xs with
      | some (y, xs') => some (y :: xs'.reverse)
      | none => none

/-- Big-endian numeric encoding of a character list; used only as a
termination measure for the enumeration loop (lexicographically larger
lists of the same length have larger encodings). -/
def encode : List Char → Nat
  | [] => 0
  | c :: t => c.toNat * (2 ^ 32) ^ t.length + encode t

/-- Fuel-indexed unfolding of the enumeration loop; the fuel only bounds
the recursion depth and `permsFromAux_congr` shows any sufficient fuel
gives the same value. -/
def permsFromAux : Nat → List Char → List (List Char)
  | 0, l => [l]
  | fuel + 1, l =>
    match nextPermutation l with
    | none => [l]
    | some l' => l :: permsFromAux fuel l'

/-- The enumeration loop of `get_permutations`: the list of label
arrangements visited by the `do { ... } while (std::next_permutation(...))`
loop, starting from (and including) the current arrangement `l`. -/
def permsFrom (l : List Char) : List (List Char) :=
  permsFromAux ((2 ^ 32) ^ l.length - encode l) l

/-! ### Counting the distinct rearrangements

`permsFrom` started at the sorted arrangement visits every distinct
rearrangement of the character multiset exactly once; the number of
distinct rearrangements obeys the multinomial formula
`n! / ∏ (multiplicity)!`, stated multiplicatively below. -/
def distinctPerms (l : List Char) : List (List Char) :=
  l.permutations.dedup

/-- Product of the factorials of the character multiplicities. -/
def prodFact (l : List Char) : Nat :=
  ∏ a in l.toFinset, Nat.factorial (l.count a)

/-! ### get_permutations

The C++ function sorts the label string (`std::sort`, ascending), then
runs a do/while loop over `std::next_permutation`; for each arrangement
it scans the characters left to right, skipping `'o'`, renaming `'w'` to
`"w" + std::to_string(++count)` with a per-arrangement counter, and
appending the slot index to `permutations[label]`.  The
`std::map<std::string, std::vector<int>>` is embedded as an association
list updated by `mupd` (append at the key, create the key when absent)
and queried by `mget` (missing key yields `[]`, matching `operator[]`
on an untouched key). -/
def mupd : List (String × List Nat) → String → Nat → List (String × List Nat)
  | [], k, v => [(k, [v])]
  | (k', vs) :: rest, k, v =>
    if k' = k then (k', vs ++ [v]) :: rest else (k', vs) :: mupd rest k v

def mget : List (String × List Nat) → String → List Nat
  | [], _ => []
  | (k', vs) :: rest, k => if k' = k then vs else mget rest k

/-- The inner `for (idx = 0; idx < N; ++idx)` scan over one arrangement,
carrying the running slot index and the per-arrangement `w` counter. -/
def scanGo (m : List (String × List Nat)) (idx count : Nat) :
    List Char → List (String × List Nat)
  | [] => m
  | c :: rest =>
    if c = 'o' then scanGo m (idx + 1) count rest
    else if c = 'w' then
      scanGo (mupd m ("w" ++ toString (count + 1)) idx) (idx + 1) (count + 1) rest
    else scanGo (mupd m (String.singleton c) idx) (idx + 1) count rest

def scanOne (m : List (String × List Nat)) (p : List Char) :
    List (String × List Nat) :=
  scanGo m 0 0 p

/-- Embedding of `get_permutations` (`ml_helpers.cpp`, lines 8–23). -/
def get_permutations (jet_labels : List Char) : List (String × List Nat) :=
  (permsFrom (List.insertionSort (· ≤ ·) jet_labels)).foldl scanOne []

/-! ### get_permutations_dict

The C++ function (lines 25–39) first builds `permutations_dict` in a loop
over `N = 4 .. MAX_N_JETS` from `get_permutations`, but then declares a
fresh map `permutations`, stores only the hardcoded `N = 4` literal table
in it, and returns that fresh map; the loop-built `permutations_dict` is
dead.  Both the dead loop result (`permutations_dict_loop`) and the
returned value (`get_permutations_dict`) are embedded. -/
def n4_table : List (List Nat) :=
  [[1, 1, 2, 2, 2, 2, 3, 3, 3, 3, 3, 3],
   [0, 0, 0, 0, 1, 1, 0, 0, 1, 1, 2, 2],
   [2, 3, 1, 3, 0, 3, 1, 2, 0, 2, 0, 1],
   [3, 2, 3, 1, 3, 0, 2, 1, 2, 0, 1, 0]]

/-- The four role lists `{permutations["w1"], permutations["w2"],
permutations["h"], permutations["l"]}` extracted from one
`get_permutations` result. -/
def roleLists (s : List Char) : List (List Nat) :=
  [mget (get_permutations s) "w1", mget (get_permutations s) "w2",
   mget (get_permutations s) "h", mget (get_permutations s) "l"]

/-- The label string `base + std::string(N-4, 'o')` with `base = "wwhl"`. -/
def jetLabels (N : Nat) : List Char :=
  'w' :: 'w' :: 'h' :: 'l' :: List.replicate (N - 4) 'o'

/-- The value held by the local variable `permutations_dict` after the
`for (N = 4; N <= MAX_N_JETS; ++N)` loop — computed and then discarded
by the C++ function. -/
def permutations_dict_loop (MAX_N_JETS : Nat) : List (Nat × List (List Nat)) :=
  (List.range' 4 (MAX_N_JETS - 3)).map fun N => (N, roleLists (jetLabels N))

/-- Embedding of `get_permutations_dict` (lines 25–39): the returned map
holds only the hardcoded key-4 literal table. -/
def get_permutations_dict (MAX_N_JETS : Nat) : List (Nat × List (List Nat)) :=
  let permutations_dict := permutations_dict_loop MAX_N_JETS
  [(4, n4_table)]

/-! ### inference

`inference` (lines 57–79) reads `npermutations = features.at(0).size()`
(an `std::out_of_range` failure on an empty batch, embedded as `none`),
optionally asserts that every column has that length (a failed `assert`
aborts, embedded as `none`), then for each permutation index gathers the
dense input vector `input[j] = features.at(j).at(i)` (again `none` on an
out-of-range access), queries the forest with baseline `0.0F`, and stores
`1/(1 + exp(-score))`.  Scores are embedded as elements of an arbitrary
field carrying an unspecified exponential map; the claims instantiate it
with `ℝ` and `Real.exp`. -/
def logistic {R : Type} [Field R] (rexp : R → R) (s : R) : R :=
  1 / (1 + rexp (-s))

def inference {R : Type} [Field R] (rexp : R → R) (features : List (List R))
    (forest : List R → R → R) (check_features : Bool) : Option (List R) :=
  match features with
  | [] => none
  | c0 :: rest =>
    if check_features ∧ ¬ (∀ c ∈ c0 :: rest, c.length = c0.length) then none
    else
      (List.range c0.length).mapM fun i =>
        ((c0 :: rest).mapM fun c : List R => c.get? i).map fun input =>
          logistic rexp (forest input 0)

/-- The rows of a four-list role table, one `(w1, w2, h, l)` quadruple per
permutation index. -/
def tableRows (t : List (List Nat)) : List (Nat × Nat × Nat × Nat) :=
  match t with
  | [w1, w2, h, l] => w1.zip (w2.zip (h.zip l))
  | _ => []

/-- Exchange of the `w1` and `w2` components of a role-table row. -/
def swapW (r : Nat × Nat × Nat × Nat) : Nat × Nat × Nat × Nat :=
  (r.2.1, r.1, r.2.2)

theorem encode_lt_pow (l : List Char) : encode l < (2 ^ 32) ^ l.length := by
  induction l with
  | nil => simp [encode]
  | cons c t ih =>
    have hc : c.toNat < 2 ^ 32 := by
      have := c.val.val.isLt
      simpa [Char.toNat, UInt32.toNat, UInt32.size] using this
    have h1 : c.toNat * (2 ^ 32) ^ t.length + encode t <
        c.toNat * (2 ^ 32) ^ t.length + (2 ^ 32) ^ t.length :=
      Nat.add_lt_add_left ih _
    have h2 : c.toNat * (2 ^ 32) ^ t.length + (2 ^ 32) ^ t.length =
        (c.toNat + 1) * (2 ^ 32) ^ t.length := by ring
    have h3 : (c.toNat + 1) * (2 ^ 32) ^ t.length ≤ (2 ^ 32) * (2 ^ 32) ^ t.length :=
      Nat.mul_le_mul_right _ hc
    calc encode (c :: t) < (c.toNat + 1) * (2 ^ 32) ^ t.length := h2 ▸ h1
      _ ≤ (2 ^ 32) * (2 ^ 32) ^ t.length := h3
      _ = (2 ^ 32) ^ (c :: t).length := by rw [List.length_cons, pow_succ]; ring

theorem swapOut_perm {x : Char} : ∀ {xs : List Char} {y xs'},
    swapOut x xs = some (y, xs') → y :: xs' ~ x :: xs := by
  intro xs
  induction xs with
  | nil => intro y xs' h; simp [swapOut] at h
  | cons z zs ih =>
    intro y xs' h
    rw [swapOut] at h
    cases hz : swapOut x zs with
    | some p =>
      obtain ⟨y0, zs0⟩ := p
      rw [hz] at h
      simp only [Option.some.injEq, Prod.mk.injEq] at h
      obtain ⟨hy, hxs'⟩ := h
      rw [← hy, ← hxs']
      have h1 : y0 :: zs0 ~ x :: zs := ih hz
      calc y0 :: z :: zs0 ~ z :: y0 :: zs0 := List.Perm.swap z y0 zs0
        _ ~ z :: x :: zs := h1.cons z
        _ ~ x :: z :: zs := List.Perm.swap x z zs
    | none =>
      rw [hz] at h
      by_cases hlt : x < z
      · rw [if_pos hlt] at h
        simp only [Option.some.injEq, Prod.mk.injEq] at h
        obtain ⟨hy, hxs'⟩ := h
        rw [← hy, ← hxs']
        exact List.Perm.swap x z zs
      · rw [if_neg hlt] at h; exact absurd h (by simp)

theorem swapOut_gt {x : Char} : ∀ {xs : List Char} {y xs'},
    swapOut x xs = some (y, xs') → x < y := by
  intro xs
  induction xs with
  | nil => intro y xs' h; simp [swapOut] at h
  | cons z zs ih =>
    intro y xs' h
    rw [swapOut] at h
    cases hz : swapOut x zs with
    | some p =>
      obtain ⟨y0, zs0⟩ := p
      rw [hz] at h
      simp only [Option.some.injEq, Prod.mk.injEq] at h
      obtain ⟨rfl, rfl⟩ := h
      exact ih hz
    | none =>
      rw [hz] at h
      by_cases hlt : x < z
      · rw [if_pos hlt] at h
        simp only [Option.some.injEq, Prod.mk.injEq] at h
        obtain ⟨rfl, rfl⟩ := h
        exact hlt
      · rw [if_neg hlt] at h; exact absurd h (by simp)

theorem nextPermutation_perm : ∀ {l l' : List Char},
    nextPermutation l = some l' → l' ~ l := by
  intro l
  induction l with
  | nil => intro l' h; simp [nextPermutation] at h
  | cons x xs ih =>
    intro l' h
    rw [nextPermutation] at h
    cases hxs : nextPermutation xs with
    | some ys =>
      rw [hxs] at h
      simp only [Option.some.injEq] at h
      subst h
      exact (ih hxs).cons x
    | none =>
      rw [hxs] at h
      cases hsw : swapOut x xs with
      | some p =>
        obtain ⟨y, xs'⟩ := p
        rw [hsw] at h
        simp only [Option.some.injEq] at h
        subst h
        calc y :: xs'.reverse ~ y :: xs' := (xs'.reverse_perm).cons y
          _ ~ x :: xs := swapOut_perm hsw
      | none => rw [hsw] at h; exact absurd h (by simp)

theorem nextPermutation_length {l l' : List Char}
    (h : nextPermutation l = some l') : l'.length = l.length :=
  (nextPermutation_perm h).length_eq

theorem char_toNat_lt_of_lt {a b : Char} (h : a < b) : a.toNat < b.toNat := by
  have : a.val < b.val := h
  exact this

theorem encode_lt_of_lex : ∀ {l l' : List Char}, l.length = l'.length →
    List.Lex (· < ·) l l' → encode l < encode l' := by
  intro l l' hlen h
  induction h with
  | nil => simp at hlen
  | @cons a l₁ l₂ h ih =>
    simp only [List.length_cons, Nat.add_right_cancel_iff] at hlen
    simp only [encode, hlen]
    exact Nat.add_lt_add_left (ih hlen) _
  | @rel a l₁ b l₂ hab =>
    simp only [List.length_cons, Nat.add_right_cancel_iff] at hlen
    simp only [encode, hlen]
    have h1 : encode l₁ < (2 ^ 32) ^ l₂.length := hlen ▸ encode_lt_pow l₁
    have h2 : a.toNat < b.toNat := char_toNat_lt_of_lt hab
    have h3 : a.toNat * (2 ^ 32) ^ l₂.length + encode l₁ <
        (a.toNat + 1) * (2 ^ 32) ^ l₂.length := by
      have := Nat.add_lt_add_left h1 (a.toNat * (2 ^ 32) ^ l₂.length)
      calc a.toNat * (2 ^ 32) ^ l₂.length + encode l₁
          < a.toNat * (2 ^ 32) ^ l₂.length + (2 ^ 32) ^ l₂.length := this
        _ = (a.toNat + 1) * (2 ^ 32) ^ l₂.length := by ring
    have h4 : (a.toNat + 1) * (2 ^ 32) ^ l₂.length ≤ b.toNat * (2 ^ 32) ^ l₂.length :=
      Nat.mul_le_mul_right _ h2
    have h5 : b.toNat * (2 ^ 32) ^ l₂.length ≤ b.toNat * (2 ^ 32) ^ l₂.length + encode l₂ :=
      Nat.le_add_right _ _
    omega

theorem nextPermutation_lex : ∀ {l l' : List Char},
    nextPermutation l = some l' → List.Lex (· < ·) l l' := by
  intro l
  induction l with
  | nil => intro l' h; simp [nextPermutation] at h
  | cons x xs ih =>
    intro l' h
    rw [nextPermutation] at h
    cases hxs : nextPermutation xs with
    | some ys =>
      rw [hxs] at h
      simp only [Option.some.injEq] at h
      subst h
      exact List.Lex.cons (ih hxs)
    | none =>
      rw [hxs] at h
      cases hsw : swapOut x xs with
      | some p =>
        obtain ⟨y, xs'⟩ := p
        rw [hsw] at h
        simp only [Option.some.injEq] at h
        subst h
        exact List.Lex.rel (swapOut_gt hsw)
      | none => rw [hsw] at h; exact absurd h (by simp)

theorem swapOut_none_iff {x : Char} : ∀ {xs : List Char},
    swapOut x xs = none ↔ ∀ z ∈ xs, z ≤ x := by
  intro xs
  induction xs with
  | nil => simp [swapOut]
  | cons z zs ih =>
    rw [swapOut]
    constructor
    · intro h
      cases hz : swapOut x zs with
      | some p => rw [hz] at h; exact absurd h (by simp)
      | none =>
        rw [hz] at h
        by_cases hlt : x < z
        · rw [if_pos hlt] at h; exact absurd h (by simp)
        · intro w hw
          rcases List.mem_cons.mp hw with rfl | hw'
          · exact not_lt.mp hlt
          · exact (ih.mp hz) w hw'
    · intro h
      have h1 : swapOut x zs = none := ih.mpr fun w hw => h w (List.mem_cons_of_mem z hw)
      rw [h1, if_neg (not_lt.mpr (h z (List.mem_cons_self z zs)))]

theorem nextPermutation_none_iff : ∀ {l : List Char},
    nextPermutation l = none ↔ l.Sorted (· ≥ ·) := by
  intro l
  induction l with
  | nil => simp [nextPermutation]
  | cons x xs ih =>
    rw [nextPermutation, List.sorted_cons]
    constructor
    · intro h
      cases hxs : nextPermutation xs with
      | some ys => rw [hxs] at h; exact absurd h (by simp)
      | none =>
        rw [hxs] at h
        cases hsw : swapOut x xs with
        | some p => rw [hsw] at h; obtain ⟨y, xs'⟩ := p; exact absurd h (by simp)
        | none => exact ⟨fun b hb => swapOut_none_iff.mp hsw b hb, ih.mp hxs⟩
    · intro ⟨h1, h2⟩
      rw [ih.mpr h2, swapOut_none_iff.mpr h1]

theorem fuel_step {l l' : List Char} (h : nextPermutation l = some l') :
    (2 ^ 32) ^ l'.length - encode l' + 1 ≤ (2 ^ 32) ^ l.length - encode l := by
  have hlen := nextPermutation_length h
  have hlt := encode_lt_of_lex hlen.symm (nextPermutation_lex h)
  have hub' : encode l' < (2 ^ 32) ^ l'.length := encode_lt_pow l'
  rw [hlen] at hub' ⊢
  omega

theorem permsFromAux_congr : ∀ (fuel1 : Nat) (l : List Char) (fuel2 : Nat),
    (2 ^ 32) ^ l.length - encode l ≤ fuel1 + 1 →
    (2 ^ 32) ^ l.length - encode l ≤ fuel2 + 1 →
    permsFromAux fuel1 l = permsFromAux fuel2 l := by
  intro fuel1
  induction fuel1 with
  | zero =>
    intro l fuel2 h1 h2
    cases fuel2 with
    | zero => rfl
    | succ m =>
      rw [permsFromAux, permsFromAux]
      cases hnp : nextPermutation l with
      | none => rfl
      | some l' =>
        exfalso
        have := fuel_step hnp
        have : 0 < (2 ^ 32) ^ l'.length - encode l' :=
          Nat.sub_pos_of_lt (encode_lt_pow l')
        omega
  | succ n ih =>
    intro l fuel2 h1 h2
    cases fuel2 with
    | zero =>
      rw [permsFromAux, permsFromAux]
      cases hnp : nextPermutation l with
      | none => rfl
      | some l' =>
        exfalso
        have := fuel_step hnp
        have : 0 < (2 ^ 32) ^ l'.length - encode l' :=
          Nat.sub_pos_of_lt (encode_lt_pow l')
        omega
    | succ m =>
      simp only [permsFromAux]
      cases hnp : nextPermutation l with
      | none => rfl
      | some l' =>
        have hstep := fuel_step hnp
        simp only []
        rw [ih l' m (by omega) (by omega)]

theorem permsFrom_none {l : List Char} (h : nextPermutation l = none) :
    permsFrom l = [l] := by
  rw [permsFrom]
  cases hF : (2 ^ 32) ^ l.length - encode l with
  | zero => rfl
  | succ m => simp only [permsFromAux, h]

/-- Induction along the enumeration chain: the loop either stops
(`nextPermutation` fails) or advances to the next arrangement. -/
theorem permsFrom_induction (motive : List Char → Prop)
    (base : ∀ l, nextPermutation l = none → motive l)
    (step : ∀ l l', nextPermutation l = some l' → motive l' → motive l) :
    ∀ l, motive l := by
  suffices h : ∀ n (l : List Char), (2 ^ 32) ^ l.length - encode l ≤ n → motive l by
    intro l
    exact h _ l le_rfl
  intro n
  induction n with
  | zero =>
    intro l hl
    have : 0 < (2 ^ 32) ^ l.length - encode l := Nat.sub_pos_of_lt (encode_lt_pow l)
    omega
  | succ n ih =>
    intro l hl
    cases hnp : nextPermutation l with
    | none => exact base l hnp
    | some l' =>
      have hstep := fuel_step hnp
      exact step l l' hnp (ih l' (by omega))

theorem permsFrom_some {l l' : List Char} (h : nextPermutation l = some l') :
    permsFrom l = l :: permsFrom l' := by
  rw [permsFrom, permsFrom]
  have hpos : 0 < (2 ^ 32) ^ l.length - encode l :=
    Nat.sub_pos_of_lt (encode_lt_pow l)
  have hstep := fuel_step h
  cases hF : (2 ^ 32) ^ l.length - encode l with
  | zero => omega
  | succ m =>
    simp only [permsFromAux, h]
    rw [permsFromAux_congr m l' ((2 ^ 32) ^ l'.length - encode l') (by omega) (by omega)]

theorem lex_irrefl : ∀ l : List Char, ¬ List.Lex (· < ·) l l := by
  intro l
  induction l with
  | nil => exact List.Lex.not_nil_right _ _
  | cons x xs ih =>
    intro h
    cases h with
    | cons h => exact ih h
    | rel h => exact lt_irrefl x h

/-- A non-increasing list is lexicographically maximal among its
rearrangements. -/
theorem sorted_desc_max : ∀ {l m : List Char}, l.Sorted (· ≥ ·) → m ~ l →
    ¬ List.Lex (· < ·) l m := by
  intro l
  induction l with
  | nil =>
    intro m _ hp hlex
    rw [List.perm_nil.mp hp] at hlex
    exact List.Lex.not_nil_right _ _ hlex
  | cons x xs ih =>
    intro m hs hp hlex
    obtain ⟨hx, hxs⟩ := List.sorted_cons.mp hs
    cases hlex with
    | @cons _ _ bs h =>
      exact ih hxs ((List.perm_cons x).mp hp) h
    | @rel _ _ b bs h =>
      have hb : b ∈ x :: xs := hp.mem_iff.mp (List.mem_cons_self b bs)
      rcases List.mem_cons.mp hb with rfl | hb'
      · exact lt_irrefl b h
      · exact absurd h (not_lt.mpr (hx b hb'))

/-- A non-decreasing list is lexicographically minimal among its
rearrangements. -/
theorem sorted_asc_min : ∀ {l m : List Char}, l.Sorted (· ≤ ·) → m ~ l →
    ¬ List.Lex (· < ·) m l := by
  intro l
  induction l with
  | nil =>
    intro m _ _ hlex
    exact List.Lex.not_nil_right _ _ hlex
  | cons x xs ih =>
    intro m hs hp hlex
    obtain ⟨hx, hxs⟩ := List.sorted_cons.mp hs
    cases hlex with
    | nil => exact absurd hp.length_eq (by simp)
    | @cons _ bs _ h =>
      exact ih hxs ((List.perm_cons x).mp hp) h
    | @rel b bs _ _ h =>
      have hb : b ∈ x :: xs := hp.mem_iff.mp (List.mem_cons_self b bs)
      rcases List.mem_cons.mp hb with rfl | hb'
      · exact lt_irrefl b h
      · exact absurd h (not_lt.mpr (hx b hb'))

theorem lex_trichotomy : ∀ l m : List Char,
    List.Lex (· < ·) l m ∨ l = m ∨ List.Lex (· < ·) m l
  | [], [] => Or.inr (Or.inl rfl)
  | [], _ :: _ => Or.inl List.Lex.nil
  | _ :: _, [] => Or.inr (Or.inr List.Lex.nil)
  | a :: l, b :: m => by
    rcases lt_trichotomy a b with h | rfl | h
    · exact Or.inl (List.Lex.rel h)
    · rcases lex_trichotomy l m with h | rfl | h
      · exact Or.inl (List.Lex.cons h)
      · exact Or.inr (Or.inl rfl)
      · exact Or.inr (Or.inr (List.Lex.cons h))
    · exact Or.inr (Or.inr (List.Lex.rel h))

/-- On a non-increasing tail, `swapOut` removes the least element that
exceeds the pivot, and leaves a non-increasing list. -/
theorem swapOut_spec {x : Char} : ∀ {xs : List Char} {y xs'},
    xs.Sorted (· ≥ ·) → swapOut x xs = some (y, xs') →
    (∀ b ∈ xs, x < b → y ≤ b) ∧ xs'.Sorted (· ≥ ·) := by
  intro xs
  induction xs with
  | nil => intro y xs' _ h; simp [swapOut] at h
  | cons z zs ih =>
    intro y xs' hs h
    obtain ⟨hz, hzs⟩ := List.sorted_cons.mp hs
    rw [swapOut] at h
    cases hzz : swapOut x zs with
    | some p =>
      obtain ⟨y0, zs0⟩ := p
      rw [hzz] at h
      simp only [Option.some.injEq, Prod.mk.injEq] at h
      obtain ⟨hy, hxs'⟩ := h
      obtain ⟨min0, sorted0⟩ := ih hzs hzz
      have hy0_mem : y0 ∈ x :: zs := (swapOut_perm hzz).mem_iff.mp (List.mem_cons_self _ _)
      have hy0_gt : x < y0 := swapOut_gt hzz
      have hy0_zs : y0 ∈ zs := by
        rcases List.mem_cons.mp hy0_mem with rfl | hm
        · exact absurd hy0_gt (lt_irrefl _)
        · exact hm
      constructor
      · intro b hb hxb
        rcases List.mem_cons.mp hb with rfl | hb'
        · exact hy ▸ le_trans (hz y0 hy0_zs) (le_refl b)
        · exact hy ▸ min0 b hb' hxb
      · rw [← hxs']
        rw [List.sorted_cons]
        refine ⟨?_, sorted0⟩
        intro w hw
        have hw' : w ∈ x :: zs := (swapOut_perm hzz).mem_iff.mp (List.mem_cons_of_mem _ hw)
        rcases List.mem_cons.mp hw' with rfl | hm
        · exact le_trans (le_of_lt hy0_gt) (hz y0 hy0_zs)
        · exact hz w hm
    | none =>
      rw [hzz] at h
      by_cases hlt : x < z
      · rw [if_pos hlt] at h
        simp only [Option.some.injEq, Prod.mk.injEq] at h
        obtain ⟨hy, hxs'⟩ := h
        have hall : ∀ w ∈ zs, w ≤ x := swapOut_none_iff.mp hzz
        constructor
        · intro b hb hxb
          rcases List.mem_cons.mp hb with rfl | hb'
          · exact hy ▸ le_refl b
          · exact absurd hxb (not_lt.mpr (hall b hb'))
        · rw [← hxs', List.sorted_cons]
          exact ⟨hall, hzs⟩
      · rw [if_neg hlt] at h; exact absurd h (by simp)

/-- `nextPermutation` produces the least rearrangement lexicographically
greater than its input: no rearrangement lies strictly between. -/
theorem nextPermutation_min : ∀ {l l' : List Char},
    nextPermutation l = some l' → ∀ m, m ~ l → List.Lex (· < ·) l m →
    l' = m ∨ List.Lex (· < ·) l' m := by
  intro l
  induction l with
  | nil => intro l' h; simp [nextPermutation] at h
  | cons x xs ih =>
    intro l' h m hp hlex
    rw [nextPermutation] at h
    cases hxs : nextPermutation xs with
    | some ys =>
      rw [hxs] at h
      simp only [Option.some.injEq] at h
      subst h
      cases hlex with
      | @cons _ _ bs hl =>
        rcases ih hxs bs ((List.perm_cons x).mp hp) hl with heq | hlt
        · exact Or.inl (by rw [heq])
        · exact Or.inr (List.Lex.cons hlt)
      | @rel _ _ b bs hl => exact Or.inr (List.Lex.rel hl)
    | none =>
      rw [hxs] at h
      cases hsw : swapOut x xs with
      | some p =>
        obtain ⟨y, xs'⟩ := p
        rw [hsw] at h
        simp only [Option.some.injEq] at h
        subst h
        have hxs_sorted : xs.Sorted (· ≥ ·) := nextPermutation_none_iff.mp hxs
        obtain ⟨hmin, hsorted'⟩ := swapOut_spec hxs_sorted hsw
        cases hlex with
        | @cons _ _ bs hl =>
          exact absurd hl (sorted_desc_max hxs_sorted ((List.perm_cons x).mp hp))
        | @rel _ _ b bs hl =>
          have hb : b ∈ x :: xs := hp.mem_iff.mp (List.mem_cons_self b bs)
          have hb_xs : b ∈ xs := by
            rcases List.mem_cons.mp hb with rfl | hm
            · exact absurd hl (lt_irrefl b)
            · exact hm
          have hyb : y ≤ b := hmin b hb_xs hl
          rcases lt_or_eq_of_le hyb with hlt | rfl
          · exact Or.inr (List.Lex.rel hlt)
          · have hrev_sorted : xs'.reverse.Sorted (· ≤ ·) := by
              rw [List.Sorted, List.pairwise_reverse]
              exact hsorted'
            have hperm1 : y :: xs'.reverse ~ x :: xs :=
              ((xs'.reverse_perm).cons y).trans (swapOut_perm hsw)
            have hbs : bs ~ xs'.reverse := by
              have h1 : y :: bs ~ y :: xs'.reverse := hp.trans hperm1.symm
              exact (List.perm_cons y).mp h1
            rcases lex_trichotomy xs'.reverse bs with hlt | heq | hgt
            · exact Or.inr (List.Lex.cons hlt)
            · exact Or.inl (by rw [heq])
            · exact absurd hgt (sorted_asc_min hrev_sorted hbs)
      | none => rw [hsw] at h; exact absurd h (by simp)

theorem lex_trans : ∀ {a b c : List Char}, List.Lex (· < ·) a b →
    List.Lex (· < ·) b c → List.Lex (· < ·) a c := by
  intro a b c h1 h2
  induction h1 generalizing c with
  | nil =>
    cases h2 with
    | cons _ => exact List.Lex.nil
    | rel _ => exact List.Lex.nil
  | cons h1' ih =>
    cases h2 with
    | cons h2' => exact List.Lex.cons (ih h2')
    | rel hr => exact List.Lex.rel hr
  | rel hr =>
    cases h2 with
    | cons h2' => exact List.Lex.rel hr
    | rel hr2 => exact List.Lex.rel (lt_trans hr hr2)

theorem mem_permsFrom_self (l : List Char) : l ∈ permsFrom l := by
  cases h : nextPermutation l with
  | none => rw [permsFrom_none h]; exact List.mem_singleton_self l
  | some l' => rw [permsFrom_some h]; exact List.mem_cons_self _ _

theorem mem_permsFrom_perm : ∀ (l : List Char), ∀ p ∈ permsFrom l, p ~ l := by
  intro l
  induction l using permsFrom_induction with
  | base l h =>
    intro p hp
    rw [permsFrom_none h, List.mem_singleton] at hp
    rw [hp]
  | step l l' h ih =>
    intro p hp
    rw [permsFrom_some h, List.mem_cons] at hp
    rcases hp with rfl | hp'
    · exact List.Perm.refl p
    · exact (ih p hp').trans (nextPermutation_perm h)

theorem mem_permsFrom_ge : ∀ (l : List Char), ∀ p ∈ permsFrom l,
    p = l ∨ List.Lex (· < ·) l p := by
  intro l
  induction l using permsFrom_induction with
  | base l h =>
    intro p hp
    rw [permsFrom_none h, List.mem_singleton] at hp
    exact Or.inl hp
  | step l l' h ih =>
    intro p hp
    rw [permsFrom_some h, List.mem_cons] at hp
    rcases hp with rfl | hp'
    · exact Or.inl rfl
    · rcases ih p hp' with rfl | hlex
      · exact Or.inr (nextPermutation_lex h)
      · exact Or.inr (lex_trans (nextPermutation_lex h) hlex)

theorem mem_permsFrom_of_ge : ∀ (l : List Char), ∀ q, q ~ l →
    (q = l ∨ List.Lex (· < ·) l q) → q ∈ permsFrom l := by
  intro l
  induction l using permsFrom_induction with
  | base l h =>
    intro q hq hge
    rcases hge with rfl | hlex
    · exact mem_permsFrom_self q
    · exact absurd hlex (sorted_desc_max (nextPermutation_none_iff.mp h) hq)
  | step l l' h ih =>
    intro q hq hge
    rcases hge with rfl | hlex
    · exact mem_permsFrom_self q
    · rw [permsFrom_some h]
      have hq' : q ~ l' := hq.trans (nextPermutation_perm h).symm
      rcases nextPermutation_min h q hq hlex with heq | hlex'
      · rw [← heq]; exact List.mem_cons_of_mem _ (mem_permsFrom_self l')
      · exact List.mem_cons_of_mem _ (ih q hq' (Or.inr hlex'))

theorem permsFrom_pairwise : ∀ (l : List Char),
    (permsFrom l).Pairwise (List.Lex (· < ·)) := by
  intro l
  induction l using permsFrom_induction with
  | base l h => rw [permsFrom_none h]; exact List.pairwise_singleton _ _
  | step l l' h ih =>
    rw [permsFrom_some h, List.pairwise_cons]
    refine ⟨?_, ih⟩
    intro p hp
    rcases mem_permsFrom_ge l' p hp with rfl | hlex
    · exact nextPermutation_lex h
    · exact lex_trans (nextPermutation_lex h) hlex

theorem permsFrom_nodup (l : List Char) : (permsFrom l).Nodup :=
  (permsFrom_pairwise l).imp fun h => by
    intro heq
    exact lex_irrefl _ (heq ▸ h)

theorem mem_distinctPerms {l p : List Char} : p ∈ distinctPerms l ↔ p ~ l := by
  rw [distinctPerms, List.mem_dedup, List.mem_permutations]

theorem distinctPerms_nodup (l : List Char) : (distinctPerms l).Nodup :=
  List.nodup_dedup _

/-- Started at the (ascending-)sorted arrangement, the enumeration loop
visits exactly the distinct rearrangements. -/
theorem permsFrom_length_sorted {l : List Char} (hs : l.Sorted (· ≤ ·)) :
    (permsFrom l).length = (distinctPerms l).length := by
  have hperm : permsFrom l ~ distinctPerms l := by
    apply (List.perm_ext_iff_of_nodup (permsFrom_nodup l) (distinctPerms_nodup l)).mpr
    intro p
    constructor
    · intro hp
      exact mem_distinctPerms.mpr (mem_permsFrom_perm l p hp)
    · intro hp
      have hq : p ~ l := mem_distinctPerms.mp hp
      apply mem_permsFrom_of_ge l p hq
      rcases lex_trichotomy p l with hlex | rfl | hlex
      · exact absurd hlex (sorted_asc_min hs hq)
      · exact Or.inl rfl
      · exact Or.inr hlex
  exact hperm.length_eq

theorem prodFact_erase {l : List Char} {a : Char} (ha : a ∈ l) :
    l.count a * prodFact (l.erase a) = prodFact l := by
  have hsub : (l.erase a).toFinset ⊆ l.toFinset := by
    intro b hb
    rw [List.mem_toFinset] at hb ⊢
    exact List.erase_subset a l hb
  have h1 : prodFact (l.erase a) = ∏ b in l.toFinset, Nat.factorial ((l.erase a).count b) := by
    rw [prodFact]
    apply Finset.prod_subset hsub
    intro b _ hb
    rw [List.mem_toFinset] at hb
    rw [List.count_eq_zero_of_not_mem hb, Nat.factorial_zero]
  have hmem : a ∈ l.toFinset := List.mem_toFinset.mpr ha
  have h2 : ∏ b in l.toFinset, Nat.factorial ((l.erase a).count b) =
      Nat.factorial ((l.erase a).count a) *
        ∏ b in l.toFinset.erase a, Nat.factorial ((l.erase a).count b) :=
    (Finset.mul_prod_erase _ _ hmem).symm
  have h3 : ∏ b in l.toFinset.erase a, Nat.factorial ((l.erase a).count b) =
      ∏ b in l.toFinset.erase a, Nat.factorial (l.count b) := by
    apply Finset.prod_congr rfl
    intro b hb
    rw [List.count_erase_of_ne (Finset.ne_of_mem_erase hb) l]
  have h4 : prodFact l = Nat.factorial (l.count a) *
      ∏ b in l.toFinset.erase a, Nat.factorial (l.count b) :=
    (Finset.mul_prod_erase _ _ hmem).symm
  rw [h1, h2, h3, List.count_erase_self, ← mul_assoc,
    Nat.mul_factorial_pred (List.count_pos_iff.mpr ha), h4]

theorem distinctPerms_nil : distinctPerms ([] : List Char) = [[]] := by
  rw [distinctPerms, List.permutations_nil]
  rfl

theorem distinctPerms_length_decomp {l : List Char} (hl : l ≠ []) :
    (distinctPerms l).length =
      ∑ a in l.toFinset, (distinctPerms (l.erase a)).length := by
  have hcard : (distinctPerms l).toFinset.card = (distinctPerms l).length :=
    List.toFinset_card_of_nodup (distinctPerms_nodup l)
  have hext : (distinctPerms l).toFinset =
      l.toFinset.biUnion
        (fun a => ((distinctPerms (l.erase a)).toFinset).image (a :: ·)) := by
    ext p
    simp only [List.mem_toFinset, mem_distinctPerms, Finset.mem_biUnion, Finset.mem_image]
    constructor
    · intro hp
      cases p with
      | nil => exact absurd (List.perm_nil.mp hp.symm) hl
      | cons a q =>
        obtain ⟨ha, hq⟩ := List.cons_perm_iff_perm_erase.mp hp
        exact ⟨a, ha, q, hq, rfl⟩
    · rintro ⟨a, ha, q, hq, rfl⟩
      exact List.cons_perm_iff_perm_erase.mpr ⟨ha, hq⟩
  have hdisj : (l.toFinset : Set Char).Pairwise fun a b =>
      Disjoint (((distinctPerms (l.erase a)).toFinset).image (a :: ·))
        (((distinctPerms (l.erase b)).toFinset).image (b :: ·)) := by
    intro a _ b _ hab
    rw [Finset.disjoint_left]
    intro p hp1 hp2
    rw [Finset.mem_image] at hp1 hp2
    obtain ⟨q1, _, h1⟩ := hp1
    obtain ⟨q2, _, h2⟩ := hp2
    exact hab (List.head_eq_of_cons_eq (h1.trans h2.symm))
  calc (distinctPerms l).length = (distinctPerms l).toFinset.card := hcard.symm
    _ = (l.toFinset.biUnion
          (fun a => ((distinctPerms (l.erase a)).toFinset).image (a :: ·))).card := by
        rw [hext]
    _ = ∑ a in l.toFinset, (((distinctPerms (l.erase a)).toFinset).image (a :: ·)).card :=
        Finset.card_biUnion hdisj
    _ = ∑ a in l.toFinset, (distinctPerms (l.erase a)).length := by
        apply Finset.sum_congr rfl
        intro a _
        rw [Finset.card_image_of_injective _ List.cons_injective,
          List.toFinset_card_of_nodup (distinctPerms_nodup _)]

theorem distinctPerms_mul_prodFact_aux : ∀ (n : Nat) (l : List Char), l.length = n →
    (distinctPerms l).length * prodFact l = Nat.factorial n := by
  intro n
  induction n using Nat.strong_induction_on with
  | _ n ih =>
    intro l hlen
    cases l with
    | nil =>
      simp only [List.length_nil] at hlen
      subst hlen
      rw [distinctPerms_nil]
      simp [prodFact]
    | cons x xs =>
      have hne : x :: xs ≠ [] := by simp
      set l := x :: xs with hl
      have hn : 0 < n := by rw [← hlen, hl]; simp
      rw [distinctPerms_length_decomp hne, Finset.sum_mul]
      have hstep : ∀ a ∈ l.toFinset,
          (distinctPerms (l.erase a)).length * prodFact l =
            l.count a * Nat.factorial (n - 1) := by
        intro a ha
        rw [List.mem_toFinset] at ha
        have hlen_erase : (l.erase a).length = n - 1 := by
          rw [List.length_erase_of_mem ha, hlen]
        have hih : (distinctPerms (l.erase a)).length * prodFact (l.erase a) =
            Nat.factorial (n - 1) :=
          ih (n - 1) (by omega) _ hlen_erase
        calc (distinctPerms (l.erase a)).length * prodFact l
            = (distinctPerms (l.erase a)).length * (l.count a * prodFact (l.erase a)) := by
              rw [prodFact_erase ha]
          _ = l.count a * ((distinctPerms (l.erase a)).length * prodFact (l.erase a)) := by
              ring
          _ = l.count a * Nat.factorial (n - 1) := by rw [hih]
      rw [Finset.sum_congr rfl hstep, ← Finset.sum_mul]
      have hsum : ∑ a in l.toFinset, l.count a = n := by
        have := Multiset.toFinset_sum_count_eq (l : Multiset Char)
        rw [← hlen]
        simpa using this
      rw [hsum, Nat.mul_factorial_pred hn]

theorem distinctPerms_mul_prodFact (l : List Char) :
    (distinctPerms l).length * prodFact l = Nat.factorial l.length :=
  distinctPerms_mul_prodFact_aux l.length l rfl

/-! ### Behaviour of the map operations and the scan -/
theorem mget_mupd_self : ∀ (m : List (String × List Nat)) (k : String) (v : Nat),
    mget (mupd m k v) k = mget m k ++ [v] := by
  intro m k v
  induction m with
  | nil => simp [mupd, mget]
  | cons e rest ih =>
    obtain ⟨k', vs⟩ := e
    by_cases hk : k' = k
    · simp [mupd, mget, hk]
    · simp [mupd, mget, hk, ih]

theorem mget_mupd_ne : ∀ (m : List (String × List Nat)) (k k' : String) (v : Nat),
    k' ≠ k → mget (mupd m k' v) k = mget m k := by
  intro m k k' v hne
  induction m with
  | nil => simp [mupd, mget, hne]
  | cons e rest ih =>
    obtain ⟨k0, vs⟩ := e
    by_cases hk : k0 = k'
    · subst hk
      simp [mupd, mget, hne]
    · by_cases hk2 : k0 = k
      · simp [mupd, mget, hk, hk2, Ne.symm hne]
      · simp [mupd, mget, hk, hk2, ih]

theorem string_append_ne_singleton {c : Char} (s : String) (h : c ≠ 'w') :
    ("w" ++ s) ≠ String.singleton c := by
  intro heq
  have hdata := congrArg String.data heq
  rw [String.data_append] at hdata
  simp [String.singleton] at hdata
  exact h hdata.1.symm

theorem singleton_ne_w1 (c : Char) : String.singleton c ≠ "w1" := by
  intro heq
  have hdata := congrArg String.data heq
  simp [String.singleton] at hdata

theorem singleton_ne_w2 (c : Char) : String.singleton c ≠ "w2" := by
  intro heq
  have hdata := congrArg String.data heq
  simp [String.singleton] at hdata

theorem singleton_inj {c d : Char} (h : String.singleton c = String.singleton d) :
    c = d := by
  have hdata := congrArg String.data h
  simpa [String.singleton] using hdata

/-- Scanning an arrangement containing no `'w'` leaves the `"w1"` and
`"w2"` entries untouched. -/
theorem scanGo_w_zero : ∀ (rest : List Char) (m : List (String × List Nat))
    (idx count : Nat), rest.count 'w' = 0 →
    mget (scanGo m idx count rest) "w1" = mget m "w1" ∧
    mget (scanGo m idx count rest) "w2" = mget m "w2" := by
  intro rest
  induction rest with
  | nil => intro m idx count _; exact ⟨rfl, rfl⟩
  | cons d rest ih =>
    intro m idx count hcnt
    have hdw : d ≠ 'w' := by
      intro hdw
      rw [hdw] at hcnt
      simp [List.count_cons] at hcnt
    have hcnt' : rest.count 'w' = 0 := by
      rw [List.count_cons] at hcnt
      omega
    by_cases hdo : d = 'o'
    · rw [scanGo, if_pos hdo]
      exact ih m (idx + 1) count hcnt'
    · rw [scanGo, if_neg hdo, if_neg hdw]
      obtain ⟨h1, h2⟩ := ih (mupd m (String.singleton d) idx) (idx + 1) count hcnt'
      rw [h1, h2, mget_mupd_ne _ _ _ _ (singleton_ne_w1 d),
        mget_mupd_ne _ _ _ _ (singleton_ne_w2 d)]
      exact ⟨rfl, rfl⟩

/-- Scanning an arrangement with one remaining `'w'` and the counter at 1
appends exactly one slot index to `"w2"` and leaves `"w1"` untouched. -/
theorem scanGo_w_one : ∀ (rest : List Char) (m : List (String × List Nat))
    (idx : Nat), rest.count 'w' = 1 →
    ∃ j, idx ≤ j ∧
      mget (scanGo m idx 1 rest) "w1" = mget m "w1" ∧
      mget (scanGo m idx 1 rest) "w2" = mget m "w2" ++ [j] := by
  intro rest
  induction rest with
  | nil => intro m idx hcnt; simp at hcnt
  | cons d rest ih =>
    intro m idx hcnt
    by_cases hdw : d = 'w'
    · subst hdw
      have hcnt' : rest.count 'w' = 0 := by
        rw [List.count_cons] at hcnt
        simp at hcnt
        omega
      rw [scanGo, if_neg (by decide), if_pos rfl]
      obtain ⟨h1, h2⟩ := scanGo_w_zero rest
        (mupd m ("w" ++ toString (1 + 1)) idx) (idx + 1) (1 + 1) hcnt'
      refine ⟨idx, le_refl idx, ?_, ?_⟩
      · rw [h1]
        have : ("w" ++ toString (1 + 1)) = "w2" := rfl
        rw [this, mget_mupd_ne _ _ _ _ (by decide)]
      · rw [h2]
        have : ("w" ++ toString (1 + 1)) = "w2" := rfl
        rw [this, mget_mupd_self]
    · have hcnt' : rest.count 'w' = 1 := by
        rw [List.count_cons] at hcnt
        simp [hdw] at hcnt
        omega
      by_cases hdo : d = 'o'
      · rw [scanGo, if_pos hdo]
        obtain ⟨j, hj, h1, h2⟩ := ih m (idx + 1) hcnt'
        exact ⟨j, by omega, h1, h2⟩
      · rw [scanGo, if_neg hdo, if_neg hdw]
        obtain ⟨j, hj, h1, h2⟩ := ih (mupd m (String.singleton d) idx) (idx + 1) hcnt'
        refine ⟨j, by omega, ?_, ?_⟩
        · rw [h1, mget_mupd_ne _ _ _ _ (singleton_ne_w1 d)]
        · rw [h2, mget_mupd_ne _ _ _ _ (singleton_ne_w2 d)]

/-- Scanning an arrangement with exactly two `'w'` characters (counter at
0) appends one slot index to `"w1"` and a strictly larger one to
`"w2"`. -/
theorem scanGo_w_two : ∀ (rest : List Char) (m : List (String × List Nat))
    (idx : Nat), rest.count 'w' = 2 →
    ∃ i j, idx ≤ i ∧ i < j ∧
      mget (scanGo m idx 0 rest) "w1" = mget m "w1" ++ [i] ∧
      mget (scanGo m idx 0 rest) "w2" = mget m "w2" ++ [j] := by
  intro rest
  induction rest with
  | nil => intro m idx hcnt; simp at hcnt
  | cons d rest ih =>
    intro m idx hcnt
    by_cases hdw : d = 'w'
    · subst hdw
      have hcnt' : rest.count 'w' = 1 := by
        rw [List.count_cons] at hcnt
        simp at hcnt
        omega
      rw [scanGo, if_neg (by decide), if_pos rfl]
      obtain ⟨j, hj, h1, h2⟩ := scanGo_w_one rest
        (mupd m ("w" ++ toString (0 + 1)) idx) (idx + 1) hcnt'
      have hkey : ("w" ++ toString (0 + 1)) = "w1" := rfl
      refine ⟨idx, j, le_refl idx, by omega, ?_, ?_⟩
      · rw [h1, hkey, mget_mupd_self]
      · rw [h2, hkey, mget_mupd_ne _ _ _ _ (by decide)]
    · have hcnt' : rest.count 'w' = 2 := by
        rw [List.count_cons] at hcnt
        simp [hdw] at hcnt
        omega
      by_cases hdo : d = 'o'
      · rw [scanGo, if_pos hdo]
        obtain ⟨i, j, hi, hij, h1, h2⟩ := ih m (idx + 1) hcnt'
        exact ⟨i, j, by omega, hij, h1, h2⟩
      · rw [scanGo, if_neg hdo, if_neg hdw]
        obtain ⟨i, j, hi, hij, h1, h2⟩ := ih (mupd m (String.singleton d) idx) (idx + 1) hcnt'
        refine ⟨i, j, by omega, hij, ?_, ?_⟩
        · rw [h1, mget_mupd_ne _ _ _ _ (singleton_ne_w1 d)]
        · rw [h2, mget_mupd_ne _ _ _ _ (singleton_ne_w2 d)]

/-- Scanning appends, to the entry of a single-character role key `c`
(neither `'o'` nor `'w'`), one slot index per occurrence of `c`. -/
theorem scanGo_single (c : Char) (hco : c ≠ 'o') (hcw : c ≠ 'w') :
    ∀ (rest : List Char) (m : List (String × List Nat)) (idx count : Nat),
    (mget (scanGo m idx count rest) (String.singleton c)).length
      = (mget m (String.singleton c)).length + rest.count c := by
  intro rest
  induction rest with
  | nil => intro m idx count; simp [scanGo]
  | cons d rest ih =>
    intro m idx count
    by_cases hdo : d = 'o'
    · subst hdo
      rw [scanGo, if_pos rfl, ih]
      have : c ≠ 'o' := hco
      rw [List.count_cons]
      simp [Ne.symm this]
    · by_cases hdw : d = 'w'
      · subst hdw
        rw [scanGo, if_neg hdo, if_pos rfl, ih,
          mget_mupd_ne _ _ _ _ (string_append_ne_singleton _ hcw)]
        rw [List.count_cons]
        simp [Ne.symm hcw]
      · rw [scanGo, if_neg hdo, if_neg hdw, ih]
        by_cases hdc : d = c
        · subst hdc
          rw [mget_mupd_self, List.length_append, List.count_cons]
          simp
          omega
        · rw [mget_mupd_ne _ _ _ _ (fun h => hdc (singleton_inj h)), List.count_cons]
          simp [Ne.symm hdc, hdc]

/-- Folding the scan over a list of arrangements, each containing the
single-character role key `c` exactly once, appends one index per
arrangement. -/
theorem foldl_scan_single (c : Char) (hco : c ≠ 'o') (hcw : c ≠ 'w') :
    ∀ (ps : List (List Char)) (m : List (String × List Nat)),
    (∀ p ∈ ps, p.count c = 1) →
    (mget (ps.foldl scanOne m) (String.singleton c)).length
      = (mget m (String.singleton c)).length + ps.length := by
  intro ps
  induction ps with
  | nil => intro m _; simp
  | cons p ps ih =>
    intro m hall
    rw [List.foldl_cons, ih _ (fun q hq => hall q (List.mem_cons_of_mem p hq))]
    rw [scanOne, scanGo_single c hco hcw, hall p (List.mem_cons_self p ps),
      List.length_cons]
    omega

/-- Folding the scan over arrangements with exactly two `'w'` characters:
the `"w1"` and `"w2"` entries grow by one index per arrangement and stay
pointwise strictly ordered. -/
theorem foldl_scan_w : ∀ (ps : List (List Char)) (m : List (String × List Nat)),
    (∀ p ∈ ps, p.count 'w' = 2) →
    (mget (ps.foldl scanOne m) "w1").length = (mget m "w1").length + ps.length ∧
    (mget (ps.foldl scanOne m) "w2").length = (mget m "w2").length + ps.length ∧
    (List.Forall₂ (· < ·) (mget m "w1") (mget m "w2") →
      List.Forall₂ (· < ·) (mget (ps.foldl scanOne m) "w1")
        (mget (ps.foldl scanOne m) "w2")) := by
  intro ps
  induction ps with
  | nil => intro m _; exact ⟨by simp, by simp, fun h => h⟩
  | cons p ps ih =>
    intro m hall
    obtain ⟨i, j, _, hij, h1, h2⟩ :=
      scanGo_w_two p m 0 (hall p (List.mem_cons_self p ps))
    obtain ⟨ih1, ih2, ih3⟩ :=
      ih (scanOne m p) (fun q hq => hall q (List.mem_cons_of_mem p hq))
    rw [List.foldl_cons]
    refine ⟨?_, ?_, ?_⟩
    · rw [ih1, scanOne, h1, List.length_append]
      simp
      omega
    · rw [ih2, scanOne, h2, List.length_append]
      simp
      omega
    · intro hf
      apply ih3
      rw [scanOne, h1, h2]
      exact List.rel_append hf (List.Forall₂.cons hij List.Forall₂.nil)

/-! ### Role-table properties for label strings -/
theorem mem_permsFrom_count (s : List Char) (c : Char) :
    ∀ p ∈ permsFrom (List.insertionSort (· ≤ ·) s), p.count c = s.count c := by
  intro p hp
  have h1 : p ~ List.insertionSort (· ≤ ·) s :=
    mem_permsFrom_perm (List.insertionSort (· ≤ ·) s) p hp
  have h2 : List.insertionSort (· ≤ ·) s ~ s := List.perm_insertionSort _ s
  exact (h1.trans h2).count_eq c

/-- With exactly two `'w'` labels, the `"w1"` and `"w2"` lists are
pointwise strictly ordered (first scanned occurrence before second). -/
theorem get_permutations_w_forall₂ (s : List Char) (hw : s.count 'w' = 2) :
    List.Forall₂ (· < ·) (mget (get_permutations s) "w1")
      (mget (get_permutations s) "w2") := by
  have h := foldl_scan_w (permsFrom (List.insertionSort (· ≤ ·) s)) []
    (fun p hp => (mem_permsFrom_count s 'w' p hp).trans hw)
  exact h.2.2 List.Forall₂.nil

/-- The lengths of the four role lists all equal the number of visited
arrangements. -/
theorem get_permutations_role_lengths (s : List Char)
    (hw : s.count 'w' = 2) (hh : s.count 'h' = 1) (hl : s.count 'l' = 1) :
    (mget (get_permutations s) "w1").length
        = (permsFrom (List.insertionSort (· ≤ ·) s)).length ∧
      (mget (get_permutations s) "w2").length
        = (permsFrom (List.insertionSort (· ≤ ·) s)).length ∧
      (mget (get_permutations s) "h").length
        = (permsFrom (List.insertionSort (· ≤ ·) s)).length ∧
      (mget (get_permutations s) "l").length
        = (permsFrom (List.insertionSort (· ≤ ·) s)).length := by
  have hwcnt : ∀ p ∈ permsFrom (List.insertionSort (· ≤ ·) s), p.count 'w' = 2 :=
    fun p hp => (mem_permsFrom_count s 'w' p hp).trans hw
  have hhcnt : ∀ p ∈ permsFrom (List.insertionSort (· ≤ ·) s), p.count 'h' = 1 :=
    fun p hp => (mem_permsFrom_count s 'h' p hp).trans hh
  have hlcnt : ∀ p ∈ permsFrom (List.insertionSort (· ≤ ·) s), p.count 'l' = 1 :=
    fun p hp => (mem_permsFrom_count s 'l' p hp).trans hl
  obtain ⟨h1, h2, _⟩ := foldl_scan_w (permsFrom (List.insertionSort (· ≤ ·) s)) [] hwcnt
  have h3 := foldl_scan_single 'h' (by decide) (by decide)
    (permsFrom (List.insertionSort (· ≤ ·) s)) [] hhcnt
  have h4 := foldl_scan_single 'l' (by decide) (by decide)
    (permsFrom (List.insertionSort (· ≤ ·) s)) [] hlcnt
  have hkh : String.singleton 'h' = "h" := rfl
  have hkl : String.singleton 'l' = "l" := rfl
  rw [hkh] at h3
  rw [hkl] at h4
  exact ⟨by simpa [get_permutations, mget] using h1,
    by simpa [get_permutations, mget] using h2,
    by simpa [get_permutations, mget] using h3,
    by simpa [get_permutations, mget] using h4⟩

/-- For a valid label string (two `'w'`, one `'h'`, one `'l'`, all other
characters `'o'`), the number of arrangements visited times
`2! * (count of 'o')!` is `N!`. -/
theorem permsFrom_count_valid (s : List Char)
    (hw : s.count 'w' = 2) (hh : s.count 'h' = 1) (hl : s.count 'l' = 1)
    (hmem : ∀ c ∈ s, c = 'w' ∨ c = 'h' ∨ c = 'l' ∨ c = 'o') :
    (permsFrom (List.insertionSort (· ≤ ·) s)).length *
      (Nat.factorial 2 * Nat.factorial (s.count 'o')) = Nat.factorial s.length := by
  have hsort : (List.insertionSort (· ≤ ·) s).Sorted (· ≤ ·) :=
    List.sorted_insertionSort _ s
  have hperm : List.insertionSort (· ≤ ·) s ~ s := List.perm_insertionSort _ s
  have step1 : (permsFrom (List.insertionSort (· ≤ ·) s)).length
      = (distinctPerms (List.insertionSort (· ≤ ·) s)).length :=
    permsFrom_length_sorted hsort
  have step2 := distinctPerms_mul_prodFact (List.insertionSort (· ≤ ·) s)
  have step3 : prodFact (List.insertionSort (· ≤ ·) s) = prodFact s := by
    rw [prodFact, prodFact, List.toFinset_eq_of_perm _ _ hperm]
    exact Finset.prod_congr rfl fun a _ => by rw [hperm.count_eq a]
  have hsub : s.toFinset ⊆ ({'w', 'h', 'l', 'o'} : Finset Char) := by
    intro a ha
    rw [List.mem_toFinset] at ha
    rcases hmem a ha with rfl | rfl | rfl | rfl <;> simp
  have step4 : prodFact s =
      ∏ a in ({'w', 'h', 'l', 'o'} : Finset Char), Nat.factorial (s.count a) := by
    rw [prodFact]
    apply Finset.prod_subset hsub
    intro a _ ha
    rw [List.mem_toFinset] at ha
    rw [List.count_eq_zero_of_not_mem ha, Nat.factorial_zero]
  have step5 : ∏ a in ({'w', 'h', 'l', 'o'} : Finset Char), Nat.factorial (s.count a)
      = Nat.factorial 2 * Nat.factorial (s.count 'o') := by
    rw [show ({'w', 'h', 'l', 'o'} : Finset Char)
        = insert 'w' (insert 'h' (insert 'l' ({'o'} : Finset Char))) from rfl]
    rw [Finset.prod_insert (by decide), Finset.prod_insert (by decide),
      Finset.prod_insert (by decide), Finset.prod_singleton, hw, hh, hl]
    norm_num
  have step6 : (List.insertionSort (· ≤ ·) s).length = s.length := hperm.length_eq
  rw [step1, ← step6, ← step2, step3, step4, step5]

theorem mapM_eq_some_map {α β : Type} (f : α → Option β) (g : α → β) :
    ∀ (l : List α), (∀ a ∈ l, f a = some (g a)) → l.mapM f = some (l.map g) := by
  intro l
  induction l with
  | nil => intro _; rfl
  | cons a l ih =>
    intro h
    rw [List.mapM_cons, h a (List.mem_cons_self a l),
      ih (fun b hb => h b (List.mem_cons_of_mem a hb))]
    rfl

/-- On a batch of equal-length columns, `inference` returns one logistic
score per permutation index, gathered column-by-column. -/
theorem inference_spec {R : Type} [Field R] (rexp : R → R)
    (forest : List R → R → R) (check : Bool) (c0 : List R) (rest : List (List R))
    (hlen : ∀ c ∈ c0 :: rest, c.length = c0.length) :
    inference rexp (c0 :: rest) forest check =
      some ((List.range c0.length).map fun i =>
        logistic rexp (forest ((c0 :: rest).map fun c => c.getD i 0) 0)) := by
  rw [inference]
  have hcond : ¬ (check = true ∧ ¬ (∀ c ∈ c0 :: rest, c.length = c0.length)) :=
    fun hc => hc.2 hlen
  rw [if_neg hcond]
  apply mapM_eq_some_map
  intro i hi
  rw [List.mem_range] at hi
  have hinner : (c0 :: rest).mapM (fun c => c.get? i) =
      some ((c0 :: rest).map fun c => c.getD i 0) := by
    apply mapM_eq_some_map
    intro c hc
    have hic : i < c.length := by rw [hlen c hc]; exact hi
    rw [List.getD_eq_getElem _ _ hic, List.get?_eq_getElem?,
      List.getElem?_eq_getElem hic]
  rw [hinner]
  rfl

/-! ### The logistic transform over the reals -/
theorem logistic_pos (s : ℝ) : 0 < logistic Real.exp s := by
  rw [logistic]
  have h := Real.exp_pos (-s)
  apply div_pos one_pos
  linarith

theorem logistic_lt_one (s : ℝ) : logistic Real.exp s < 1 := by
  rw [logistic]
  have h := Real.exp_pos (-s)
  rw [div_lt_one (by linarith)]
  linarith

theorem logistic_strictMono : StrictMono (logistic Real.exp) := by
  intro a b hab
  rw [logistic, logistic]
  have hb := Real.exp_pos (-b)
  apply one_div_lt_one_div_of_lt (by linarith)
  have : Real.exp (-b) < Real.exp (-a) := Real.exp_lt_exp.mpr (by linarith)
  linarith

theorem logistic_tendsto_atBot :
    Filter.Tendsto (logistic Real.exp) Filter.atBot (nhds 0) := by
  have h1 : Filter.Tendsto (fun s : ℝ => -s) Filter.atBot Filter.atTop :=
    Filter.tendsto_neg_atBot_atTop
  have h2 : Filter.Tendsto (fun s : ℝ => Real.exp (-s)) Filter.atBot Filter.atTop :=
    Real.tendsto_exp_atTop.comp h1
  have h3 : Filter.Tendsto (fun s : ℝ => 1 + Real.exp (-s)) Filter.atBot Filter.atTop :=
    Filter.tendsto_atTop_add_const_left _ 1 h2
  have h4 := h3.inv_tendsto_atTop
  have : logistic Real.exp = fun s : ℝ => (1 + Real.exp (-s))⁻¹ := by
    funext s
    rw [logistic, one_div]
  rw [this]
  exact h4

theorem logistic_tendsto_atTop :
    Filter.Tendsto (logistic Real.exp) Filter.atTop (nhds 1) := by
  have h1 : Filter.Tendsto (fun s : ℝ => -s) Filter.atTop Filter.atBot :=
    Filter.tendsto_neg_atTop_atBot
  have h2 : Filter.Tendsto (fun s : ℝ => Real.exp (-s)) Filter.atTop (nhds 0) :=
    Real.tendsto_exp_atBot.comp h1
  have h3 : Filter.Tendsto (fun s : ℝ => 1 + Real.exp (-s)) Filter.atTop (nhds 1) := by
    have := Filter.Tendsto.add (tendsto_const_nhds (x := (1 : ℝ))) h2
    simpa using this
  have h4 : Filter.Tendsto (fun s : ℝ => 1 / (1 + Real.exp (-s)))
      Filter.atTop (nhds (1 / 1)) :=
    Filter.Tendsto.div tendsto_const_nhds h3 one_ne_zero
  have : logistic Real.exp = fun s : ℝ => 1 / (1 + Real.exp (-s)) := by
    funext s
    rw [logistic]
  rw [this]
  simpa using h4

theorem forall₂_lt_getD : ∀ {xs ys : List Nat}, List.Forall₂ (· < ·) xs ys →
    ∀ i, i < xs.length → xs.getD i 0 < ys.getD i 0 := by
  intro xs ys h
  induction h with
  | nil => intro i hi; simp at hi
  | @cons a b l₁ l₂ hab _ ih =>
    intro i hi
    cases i with
    | zero => simpa using hab
    | succ n =>
      rw [List.length_cons] at hi
      simpa using ih n (by omega)

/-! ### The claims -/

/-- C1: the claim states that `get_permutations_dict maxN` holds, for
every `N` in `4 .. maxN`, the role table of `enumerate` (with the `N = 4`
entry overridden by the literal).  The code instead discards the
loop-built `permutations_dict` and returns a fresh map holding only the
literal key-4 entry: at `MAX_N_JETS = 5` the returned map is still
`[(4, n4_table)]` and key 5 is absent, although the discarded loop value
does contain keys 4 and 5. -/
theorem c1_dict_returns_only_literal :
    (∀ MAX_N_JETS : Nat, get_permutations_dict MAX_N_JETS = [(4, n4_table)]) ∧
      (get_permutations_dict 5).lookup 5 = none ∧
      ((permutations_dict_loop 5).lookup 5).isSome = true ∧
      ((permutations_dict_loop 5).lookup 4).isSome = true :=
  ⟨fun _ => rfl, rfl, rfl, rfl⟩

/-- C2, counterexample: for the valid 6-slot label string `"wwhloo"` the
`"h"` role list has length 180, not `6!/2! = 360`: the two identical
`'o'` characters also collapse arrangements, so the count claimed by the
spec is wrong for `k ≥ 2`. -/
theorem c2_count_counterexample :
    (mget (get_permutations ['w', 'w', 'h', 'l', 'o', 'o']) "h").length ≠
      Nat.factorial 6 / Nat.factorial 2 := by
  have h := (get_permutations_role_lengths ['w', 'w', 'h', 'l', 'o', 'o']
    (by decide) (by decide) (by decide)).2.2.1
  have hc := permsFrom_count_valid ['w', 'w', 'h', 'l', 'o', 'o']
    (by decide) (by decide) (by decide) (by decide)
  rw [h]
  have h4 : Nat.factorial 2 *
      Nat.factorial (List.count 'o' ['w', 'w', 'h', 'l', 'o', 'o']) = 4 := by decide
  have h6 : Nat.factorial (List.length ['w', 'w', 'h', 'l', 'o', 'o']) = 720 := by decide
  have h360 : Nat.factorial 6 / Nat.factorial 2 = 360 := by decide
  rw [h4, h6] at hc
  rw [h360]
  omega

/-- C2, amended: for every valid label string with `N` slots and `k`
`'o'` characters, the enumeration visits exactly `N!/(2!·k!)`
arrangements and each of the four role lists has that length (the `2!`
collapses the two `'w'` labels and the `k!` the `k` identical `'o'`
labels). -/
theorem c2_role_list_count (s : List Char) (hw : s.count 'w' = 2)
    (hh : s.count 'h' = 1) (hl : s.count 'l' = 1)
    (hmem : ∀ c ∈ s, c = 'w' ∨ c = 'h' ∨ c = 'l' ∨ c = 'o') :
    (permsFrom (List.insertionSort (· ≤ ·) s)).length
        = Nat.factorial s.length / (Nat.factorial 2 * Nat.factorial (s.count 'o')) ∧
      (mget (get_permutations s) "w1").length
        = Nat.factorial s.length / (Nat.factorial 2 * Nat.factorial (s.count 'o')) ∧
      (mget (get_permutations s) "w2").length
        = Nat.factorial s.length / (Nat.factorial 2 * Nat.factorial (s.count 'o')) ∧
      (mget (get_permutations s) "h").length
        = Nat.factorial s.length / (Nat.factorial 2 * Nat.factorial (s.count 'o')) ∧
      (mget (get_permutations s) "l").length
        = Nat.factorial s.length / (Nat.factorial 2 * Nat.factorial (s.count 'o')) := by
  have hc := permsFrom_count_valid s hw hh hl hmem
  have hpos : 0 < Nat.factorial 2 * Nat.factorial (s.count 'o') :=
    Nat.mul_pos (Nat.factorial_pos 2) (Nat.factorial_pos _)
  have hdiv : (permsFrom (List.insertionSort (· ≤ ·) s)).length
      = Nat.factorial s.length / (Nat.factorial 2 * Nat.factorial (s.count 'o')) :=
    (Nat.div_eq_of_eq_mul_left hpos hc.symm).symm
  obtain ⟨h1, h2, h3, h4⟩ := get_permutations_role_lengths s hw hh hl
  exact ⟨hdiv, h1.trans hdiv, h2.trans hdiv, h3.trans hdiv, h4.trans hdiv⟩

/-- C2, witness: for the 5-slot label string `"wwhlo"` the `"h"` role
list has length `5!/(2!·1!) = 60`. -/
theorem c2_role_list_count_witness :
    (mget (get_permutations ['w', 'w', 'h', 'l', 'o']) "h").length
      = Nat.factorial 5 / (Nat.factorial 2 * Nat.factorial 1) := by
  have h := (c2_role_list_count ['w', 'w', 'h', 'l', 'o']
    (by decide) (by decide) (by decide) (by decide)).2.2.2.1
  have hcnt : List.count 'o' ['w', 'w', 'h', 'l', 'o'] = 1 := by decide
  have hle : List.length ['w', 'w', 'h', 'l', 'o'] = 5 := by decide
  rw [hcnt, hle] at h
  exact h

/-- C3, counterexample: the hardcoded `N = 4` literal table is not equal
to the table computed by `get_permutations` on `"wwhl"` (already the
first entry of the `w1` list differs: literal 1 versus computed 2). -/
theorem c3_literal_ne_computed : roleLists ['w', 'w', 'h', 'l'] ≠ n4_table := by
  decide

/-- C3, amended: the literal table differs from the computed one
position by position, but the two describe the same twelve assignments
with the roles `w1` and `w2` exchanged: the literal's rows are a
permutation of the computed rows after swapping the `w1` and `w2`
components. -/
theorem c3_literal_is_swapped_reordering :
    roleLists ['w', 'w', 'h', 'l'] ≠ n4_table ∧
      tableRows n4_table ~ (tableRows (roleLists ['w', 'w', 'h', 'l'])).map swapW := by
  constructor
  · decide
  · rw [← List.isPerm_iff]
    decide

/-- C4, counterexample: on the malformed label string `"www"` (three
`'w'`, no `'h'`, no `'l'`) `get_permutations` does not fail: it returns
the role table `w1 ↦ [0], w2 ↦ [1], w3 ↦ [2]`, refuting the claim that a
malformed multiset is rejected with an InvalidInput condition. -/
theorem c4_malformed_returns_table :
    get_permutations ['w', 'w', 'w'] = [("w1", [0]), ("w2", [1]), ("w3", [2])] := by
  decide

/-- C4, amended: `get_permutations` performs no input validation; on a
malformed label string it still returns a role table keyed by the
derived labels (extra `wN` keys for extra `'w'` characters, a key per
other character, the empty table for the empty string), rather than
failing. -/
theorem c4_no_validation :
    get_permutations ['w', 'w', 'w'] = [("w1", [0]), ("w2", [1]), ("w3", [2])] ∧
      get_permutations ['x', 'h'] = [("h", [0, 1]), ("x", [1, 0])] ∧
      get_permutations [] = [] := by
  exact ⟨by decide, by decide, by decide⟩

/-- C5: on a non-empty batch of equal-length columns, `inference`
returns exactly one value per permutation index, in order: the logistic
transform `1/(1+exp(-s))` of the raw forest score on the gathered dense
vector `(features[0][i], …, features[F-1][i])` with baseline offset 0. -/
theorem c5_inference_scores (c0 : List ℝ) (rest : List (List ℝ))
    (forest : List ℝ → ℝ → ℝ) (check : Bool) (P : Nat)
    (hlen : ∀ c ∈ c0 :: rest, c.length = P) :
    inference Real.exp (c0 :: rest) forest check =
      some ((List.range P).map fun i =>
        logistic Real.exp (forest ((c0 :: rest).map fun c => c.getD i 0) 0)) := by
  have h0 : c0.length = P := hlen c0 (List.mem_cons_self c0 rest)
  subst h0
  exact inference_spec Real.exp forest check c0 rest hlen

/-- C5, witness: two zero feature columns of length one with the zero
forest give the single score `logistic 0 = 1/2`. -/
theorem c5_inference_scores_witness :
    inference Real.exp [[(0 : ℝ)], [(0 : ℝ)]] (fun _ _ => (0 : ℝ)) true =
        some [logistic Real.exp 0] ∧
      logistic Real.exp (0 : ℝ) = 1 / 2 := by
  constructor
  · have h := c5_inference_scores [(0 : ℝ)] [[(0 : ℝ)]] (fun _ _ => (0 : ℝ)) true 1
      (by intro c hc; rcases List.mem_cons.mp hc with rfl | hc' <;> simp_all)
    simpa using h
  · rw [logistic]
    simp [Real.exp_zero]
    norm_num

/-- C6: with `check_features = true`, a column whose length differs from
the first column's makes `inference` fail (the assert fires, no result);
when all columns match the first, the validation passes and the result
is the same as without validation. -/
theorem c6_validation (c0 : List ℝ) (rest : List (List ℝ))
    (forest : List ℝ → ℝ → ℝ) :
    ((∃ c ∈ c0 :: rest, c.length ≠ c0.length) →
        inference Real.exp (c0 :: rest) forest true = none) ∧
      ((∀ c ∈ c0 :: rest, c.length = c0.length) →
        inference Real.exp (c0 :: rest) forest true =
          inference Real.exp (c0 :: rest) forest false) := by
  constructor
  · rintro ⟨c, hc, hne⟩
    rw [inference]
    rw [if_pos ⟨rfl, fun hall => hne (hall c hc)⟩]
  · intro hall
    rw [inference_spec Real.exp forest true c0 rest hall,
      inference_spec Real.exp forest false c0 rest hall]

/-- C6, witness: columns of lengths 1 and 2 fail under validation, and
validation on two equal-length columns changes nothing. -/
theorem c6_validation_witness :
    inference Real.exp [[(0 : ℝ)], [(0 : ℝ), 0]] (fun _ _ => (0 : ℝ)) true = none ∧
      inference Real.exp [[(0 : ℝ)], [(0 : ℝ)]] (fun _ _ => (0 : ℝ)) true =
        inference Real.exp [[(0 : ℝ)], [(0 : ℝ)]] (fun _ _ => (0 : ℝ)) false := by
  constructor
  · exact (c6_validation [(0 : ℝ)] [[(0 : ℝ), 0]] (fun _ _ => (0 : ℝ))).1
      ⟨[(0 : ℝ), 0], by simp, by simp⟩
  · exact (c6_validation [(0 : ℝ)] [[(0 : ℝ)]] (fun _ _ => (0 : ℝ))).2
      (by intro c hc; rcases List.mem_cons.mp hc with rfl | hc' <;> simp_all)

/-- C7: for the label string `"wwhl"` the enumeration visits exactly 12
arrangements and each of the four role lists has length 12. -/
theorem c7_wwhl_twelve :
    (permsFrom (List.insertionSort (· ≤ ·) ['w', 'w', 'h', 'l'])).length = 12 ∧
      (mget (get_permutations ['w', 'w', 'h', 'l']) "w1").length = 12 ∧
      (mget (get_permutations ['w', 'w', 'h', 'l']) "w2").length = 12 ∧
      (mget (get_permutations ['w', 'w', 'h', 'l']) "h").length = 12 ∧
      (mget (get_permutations ['w', 'w', 'h', 'l']) "l").length = 12 := by
  exact ⟨by decide, by decide, by decide, by decide, by decide⟩

/-- C8: over the reals, the transform `1/(1+exp(-s))` applied by
`inference` lies strictly between 0 and 1 for every score, is strictly
monotone, and tends to 0 at `-∞` and to 1 at `+∞`. -/
theorem c8_logistic_range :
    (∀ s : ℝ, 0 < logistic Real.exp s ∧ logistic Real.exp s < 1) ∧
      StrictMono (logistic Real.exp) ∧
      Filter.Tendsto (logistic Real.exp) Filter.atBot (nhds 0) ∧
      Filter.Tendsto (logistic Real.exp) Filter.atTop (nhds 1) :=
  ⟨fun s => ⟨logistic_pos s, logistic_lt_one s⟩, logistic_strictMono,
    logistic_tendsto_atBot, logistic_tendsto_atTop⟩

/-- C9: whenever the label string contains exactly two `'w'` characters,
the `"w1"` and `"w2"` role lists have the same length and the `"w1"`
entry is strictly smaller than the `"w2"` entry at every index: the
first scanned occurrence sits at a smaller slot than the second. -/
theorem c9_w1_lt_w2 (s : List Char) (hw : s.count 'w' = 2) :
    (mget (get_permutations s) "w1").length
        = (mget (get_permutations s) "w2").length ∧
      ∀ i, i < (mget (get_permutations s) "w1").length →
        (mget (get_permutations s) "w1").getD i 0
          < (mget (get_permutations s) "w2").getD i 0 := by
  have hf := get_permutations_w_forall₂ s hw
  exact ⟨hf.length_eq, fun i hi => forall₂_lt_getD hf i hi⟩

/-- C9, witness: for `"wwhl"` the two lists have equal length and at
index 0 the `"w1"` entry is smaller than the `"w2"` entry. -/
theorem c9_w1_lt_w2_witness :
    (mget (get_permutations ['w', 'w', 'h', 'l']) "w1").length
        = (mget (get_permutations ['w', 'w', 'h', 'l']) "w2").length ∧
      (mget (get_permutations ['w', 'w', 'h', 'l']) "w1").getD 0 0
        < (mget (get_permutations ['w', 'w', 'h', 'l']) "w2").getD 0 0 :=
  ⟨(c9_w1_lt_w2 ['w', 'w', 'h', 'l'] (by decide)).1,
    (c9_w1_lt_w2 ['w', 'w', 'h', 'l'] (by decide)).2 0 (by decide)⟩

/-- C10: on an empty feature batch, `inference` fails (the
`features.at(0)` access is out of range) before any scoring, whatever
the validation flag; it never returns a score sequence. -/
theorem c10_empty_batch_fails (forest : List ℝ → ℝ → ℝ) (check : Bool) :
    inference Real.exp ([] : List (List ℝ)) forest check = none := rfl

end MlHelpers
